import Mathlib

/-!
# Verification of the MRD post-processor (`compute_mrd.py`)

Shallow embedding of `openquake/calculators/postproc/compute_mrd.py`:
the weighted combiner `combine_mrds`, the partitioning/dispatch phase of
`main`, and the key set of the per-unit partial result produced by
`compute_mrd`.

Dense numpy 3-D arrays are embedded as a shape `(d1, d2, d3)` together with
a total valuation function `ℕ → ℕ → ℕ → ℚ` (entries outside the shape are
irrelevant; rationals stand for the reals, abstracting floating point).
The in-place numpy addition `out += w * value` is embedded including numpy's
broadcasting rule for equal-rank operands: the addend is accepted exactly
when each of its dimensions equals the output dimension or equals 1, and a
size-1 dimension is broadcast by reading index 0.

Failures are embedded in an `Except` monad over an error type naming both
the failure modes the code actually has (`stopIteration` from
`next(iter(acc))` on an empty accumulator, `zeroDivision` from
`n / oq.concurrent_tasks`, `broadcast` from a non-broadcastable numpy
addition, `tooManySites` from `assert N <= 10, 'Too many sites'`) and the
error names the specification introduces (`shapeMismatch`,
`configuration`), so that statements can compare what is raised with what
the specification says is raised.
-/

/-- The failure modes of the orchestration/combination code, together with
the error names used by the specification's taxonomy. -/
inductive MrdError where
  | tooManySites
  | shapeMismatch
  | configuration
  | zeroDivision
  | stopIteration
  | broadcast
deriving DecidableEq

/-- A dense 3-D array: a shape and a total valuation.  Embeds a numpy
`ndarray` of shape `(d1, d2, d3)`; only entries with indices inside the
shape are meaningful. -/
structure Arr3 where
  d1 : ℕ
  d2 : ℕ
  d3 : ℕ
  val : ℕ → ℕ → ℕ → ℚ

/-- `numpy.zeros(shape)`. -/
def Arr3.zeros (a b c : ℕ) : Arr3 := ⟨a, b, c, fun _ _ _ => 0⟩

/-- Scalar multiplication `w * value` of a numpy array by a Python float. -/
def Arr3.smul (w : ℚ) (A : Arr3) : Arr3 :=
  ⟨A.d1, A.d2, A.d3, fun i j k => w * A.val i j k⟩

/-- One axis of numpy's broadcasting test for `out += A` on equal-rank
operands: the addend dimension must equal the output dimension or be 1. -/
def bcastDim (src dst : ℕ) : Bool := src == dst || src == 1

/-- numpy's broadcastability test for the in-place addition `out += A`. -/
def Arr3.bcastOK (out A : Arr3) : Bool :=
  bcastDim A.d1 out.d1 && bcastDim A.d2 out.d2 && bcastDim A.d3 out.d3

/-- Index read from a possibly broadcast axis: a size-1 axis is read at 0. -/
def bidx (d i : ℕ) : ℕ := if d = 1 then 0 else i

/-- The value array of the in-place numpy addition `out += A` (defined when
`Arr3.bcastOK out A`); the output keeps its own shape. -/
def Arr3.iadd (out A : Arr3) : Arr3 :=
  ⟨out.d1, out.d2, out.d3,
   fun i j k => out.val i j k + A.val (bidx A.d1 i) (bidx A.d2 j) (bidx A.d3 k)⟩

/-- The in-place numpy addition `out += A`: succeeds with `Arr3.iadd` when
the shapes broadcast, otherwise raises numpy's broadcasting `ValueError`,
embedded as `MrdError.broadcast`. -/
def Arr3.iaddE (out A : Arr3) : Except MrdError Arr3 :=
  if Arr3.bcastOK out A then .ok (Arr3.iadd out A) else .error .broadcast

/-- `combine_mrds(acc, rlzs_by_g)`.  `acc` embeds the Python dict of partial
results as an association list in insertion order (`g ↦ array`); `rlzs`
embeds the field `rlzs_by_g['rlzs']` (sub-model index `g ↦` realization
list) and `weig` the field `rlzs_by_g['weight']` (realization `↦` weight).

Source:
```
g = next(iter(acc))            -- StopIteration on an empty dict
out = numpy.zeros(acc[g].shape)
for g in acc:
    value = acc[g]
    for rlz in rlzs[g]:
        out += weig[rlz] * value
return out
``` -/
def combine_mrds (acc : List (ℕ × Arr3)) (rlzs : ℕ → List ℕ) (weig : ℕ → ℚ) :
    Except MrdError Arr3 :=
  match acc with
  | [] => .error .stopIteration
  | (_, A0) :: _ =>
    acc.foldlM
      (fun out gv =>
        (rlzs gv.1).foldlM
          (fun o rlz => Arr3.iaddE o (Arr3.smul (weig rlz) gv.2)) out)
      (Arr3.zeros A0.d1 A0.d2 A0.d3)

/-- Modelled from the spec: `openquake.baselib.general.gen_slices` is not
part of the sources at hand, only its caller is.  Per §4.1 of the
specification it emits contiguous slices `[start, stop)` of length at most
`blocksize`, in order, covering the range exactly once, the last slice
possibly shorter, and an empty range yields no slices.  Structural-fuel
worker: `fuel` bounds the recursion depth; `gen_slices` supplies
`stop - start`, which always suffices.  A zero `blocksize` (which the
specification leaves undefined) yields no slices. -/
def genSlicesGo (stop blocksize : ℕ) : ℕ → ℕ → List (ℕ × ℕ)
  | 0, _ => []
  | fuel + 1, start =>
    if start < stop ∧ 0 < blocksize then
      (start, min (start + blocksize) stop) ::
        genSlicesGo stop blocksize fuel (min (start + blocksize) stop)
    else []

/-- Modelled from the spec: `gen_slices(start, stop, blocksize)` (see
`genSlicesGo`). -/
def gen_slices (start stop blocksize : ℕ) : List (ℕ × ℕ) :=
  genSlicesGo stop blocksize (stop - start) start

/-- The records selected by the slice `ctx[slc]` for `slc = (lo, hi)`. -/
def sliceRecs (ctx : List ℕ) (s : ℕ × ℕ) : List ℕ := (ctx.take s.2).drop s.1

/-- One work unit submitted by `main`: `Input(ctx[slc], cmaker, N)` for the
group `grp`, carrying the slice bounds and the sliced records. -/
structure WorkUnit where
  grp : ℕ
  lo : ℕ
  hi : ℕ
  recs : List ℕ
deriving DecidableEq

/-- The inputs `main` reads from the datastore and the job configuration:
site count `N = len(dstore['sitecol'])`, intensity-level count `L1`, the
context groups `ctx_by_grp` (group id ↦ context records, embedded as ids),
the per-group binding's sub-model index list `gidx` (from
`cmakers[grp_id].gidx`), and `oq.concurrent_tasks`. -/
structure Dstore where
  N : ℕ
  L1 : ℕ
  ctx_by_grp : List (ℕ × List ℕ)
  gidx : ℕ → List ℕ
  concurrent_tasks : ℕ

/-- `n = sum(len(ctx) for ctx in ctx_by_grp.values())`. -/
def totalCtx (ds : Dstore) : ℕ := (ds.ctx_by_grp.map fun p => p.2.length).sum

/-- `blocksize = numpy.ceil(n / oq.concurrent_tasks)`: Python raises
`ZeroDivisionError` when `concurrent_tasks` is 0, otherwise the ceiling
division `(n + T - 1) / T`. -/
def blocksizeE (n T : ℕ) : Except MrdError ℕ :=
  if T = 0 then .error .zeroDivision else .ok ((n + T - 1) / T)

/-- The work units of one group: `for slc in gen_slices(0, len(ctx),
blocksize): smap.submit((Input(ctx[slc], cmaker, N), ...))`. -/
def groupUnits (gid : ℕ) (ctx : List ℕ) (bs : ℕ) : List WorkUnit :=
  (gen_slices 0 ctx.length bs).map fun s => ⟨gid, s.1, s.2, sliceRecs ctx s⟩

/-- The validation and dispatch phase of `main`, in source order:

1. `assert N <= 10, 'Too many sites: %d' % N` — embedded as
   `MrdError.tooManySites`; raised before anything is read, partitioned,
   dispatched, or written.
2. `n = sum(len(ctx) for ctx in ctx_by_grp.values())`.
3. `blocksize = numpy.ceil(n / oq.concurrent_tasks)`.
4. For every group, for every slice of `gen_slices(0, len(ctx),
   blocksize)`, submit one work unit.

On success it returns the submitted units; an error return means the run
aborts with nothing dispatched and nothing written. -/
def mrd_main (ds : Dstore) : Except MrdError (List WorkUnit) :=
  if ds.N ≤ 10 then
    match blocksizeE (totalCtx ds) ds.concurrent_tasks with
    | .error e => .error e
    | .ok bs => .ok (ds.ctx_by_grp.flatMap fun p => groupUnits p.1 p.2 bs)
  else .error .tooManySites

/-- The key set of the partial result `compute_mrd` returns for one unit:
`{g: mrd[:, :, :, i] for i, g in enumerate(inp.cmaker.gidx)}` — exactly the
`gidx` list of the unit's group binding. -/
def compute_mrd_keys (ds : Dstore) (u : WorkUnit) : List ℕ := ds.gidx u.grp

/-- `Except.isOk` for our result type, to state "returns without error". -/
def isOkB (e : Except MrdError Arr3) : Bool :=
  match e with
  | .ok _ => true
  | .error _ => false

section Sanity

example : gen_slices 0 12 3 = [(0, 3), (3, 6), (6, 9), (9, 12)] := rfl
example : gen_slices 1 6 2 = [(1, 3), (3, 5), (5, 6)] := rfl
example : gen_slices 0 0 5 = [] := rfl
example : gen_slices 0 7 3 = [(0, 3), (3, 6), (6, 7)] := rfl

end Sanity

/-! ## Properties of the partitioner -/

/-- Any two sufficient fuels give `genSlicesGo` the same value. -/
lemma genSlicesGo_congr (stop bs : ℕ) :
    ∀ f g start, stop - start ≤ f → stop - start ≤ g →
      genSlicesGo stop bs f start = genSlicesGo stop bs g start := by
  intro f
  induction f with
  | zero =>
    intro g start hf hg
    cases g with
    | zero => rfl
    | succ g =>
      simp only [genSlicesGo]
      rw [if_neg (by omega)]
  | succ f ih =>
    intro g start hf hg
    cases g with
    | zero =>
      simp only [genSlicesGo]
      rw [if_neg (by omega)]
    | succ g =>
      simp only [genSlicesGo]
      by_cases h : start < stop ∧ 0 < bs
      · rw [if_pos h, if_pos h]
        exact congrArg _ (ih g _ (by omega) (by omega))
      · rw [if_neg h, if_neg h]

/-- The recursion equation of `gen_slices`. -/
lemma gen_slices_eq (start stop bs : ℕ) :
    gen_slices start stop bs =
      if start < stop ∧ 0 < bs then
        (start, min (start + bs) stop) ::
          gen_slices (min (start + bs) stop) stop bs
      else [] := by
  unfold gen_slices
  cases hf : stop - start with
  | zero =>
    simp only [genSlicesGo]
    rw [if_neg (by omega)]
  | succ f =>
    simp only [genSlicesGo]
    by_cases h : start < stop ∧ 0 < bs
    · rw [if_pos h, if_pos h]
      exact congrArg _ (genSlicesGo_congr stop bs f _ _ (by omega) (by omega))
    · rw [if_neg h, if_neg h]

/-- Flattening the extracted slices of `genSlicesGo` reconstructs the
records of the covered range, in order. -/
lemma genSlicesGo_cov (xs : List ℕ) (stop bs : ℕ) (hbs : 0 < bs) :
    ∀ fuel start, stop - start ≤ fuel →
      ((genSlicesGo stop bs fuel start).map (sliceRecs xs)).flatten
        = (xs.drop start).take (stop - start) := by
  intro fuel
  induction fuel with
  | zero =>
    intro start hf
    have h0 : stop - start = 0 := by omega
    simp [genSlicesGo, h0]
  | succ fuel ih =>
    intro start hf
    by_cases h : start < stop
    · have hmin : start ≤ min (start + bs) stop := by omega
      simp only [genSlicesGo, if_pos (And.intro h hbs), List.map_cons,
        List.flatten_cons]
      rw [ih (min (start + bs) stop) (by omega)]
      rw [show stop - start
            = (min (start + bs) stop - start) + (stop - min (start + bs) stop)
          by omega]
      rw [List.take_add]
      congr 1
      · show (xs.take (min (start + bs) stop)).drop start = _
        rw [List.drop_take]
      · rw [List.drop_drop]
        congr 2
        omega
    · have h0 : stop - start = 0 := by omega
      simp only [genSlicesGo]
      rw [if_neg (by omega)]
      simp [h0]

/-- Every slice of `genSlicesGo` is nonempty, in range, and of length at
most `blocksize`; its start is at or after the initial start. -/
lemma genSlicesGo_mem (stop bs : ℕ) :
    ∀ fuel start, ∀ s ∈ genSlicesGo stop bs fuel start,
      start ≤ s.1 ∧ s.1 < s.2 ∧ s.2 ≤ stop ∧ s.2 - s.1 ≤ bs := by
  intro fuel
  induction fuel with
  | zero => intro start s hs; simp [genSlicesGo] at hs
  | succ fuel ih =>
    intro start s hs
    by_cases h : start < stop ∧ 0 < bs
    · simp only [genSlicesGo, if_pos h, List.mem_cons] at hs
      rcases hs with rfl | hs
      · dsimp only
        omega
      · have := ih (min (start + bs) stop) s hs
        omega
    · simp only [genSlicesGo, if_neg h] at hs
      simp at hs

/-- The number of slices emitted by `genSlicesGo` is the ceiling of the
range length over the blocksize. -/
lemma genSlicesGo_len (stop bs : ℕ) (hbs : 0 < bs) :
    ∀ fuel start, stop - start ≤ fuel →
      (genSlicesGo stop bs fuel start).length = (stop - start + bs - 1) / bs := by
  intro fuel
  induction fuel with
  | zero =>
    intro start hf
    have h0 : stop - start = 0 := by omega
    rw [h0]
    simp [genSlicesGo, Nat.div_eq_of_lt (show bs - 1 < bs by omega)]
  | succ fuel ih =>
    intro start hf
    by_cases h : start < stop
    · simp only [genSlicesGo, if_pos (And.intro h hbs), List.length_cons]
      rw [ih (min (start + bs) stop) (by omega)]
      by_cases hr : start + bs ≤ stop
      · rw [show stop - start + bs - 1
              = (stop - min (start + bs) stop + bs - 1) + bs by omega]
        rw [Nat.add_div_right _ hbs]
      · rw [show min (start + bs) stop = stop by omega]
        rw [show stop - stop + bs - 1 = bs - 1 by omega]
        rw [show stop - start + bs - 1 = (stop - start - 1) + bs by omega]
        rw [Nat.add_div_right _ hbs]
        rw [Nat.div_eq_of_lt (show bs - 1 < bs by omega),
            Nat.div_eq_of_lt (show stop - start - 1 < bs by omega)]
    · have h0 : stop - start = 0 := by omega
      simp only [genSlicesGo]
      rw [if_neg (by omega), h0]
      simp [Nat.div_eq_of_lt (show bs - 1 < bs by omega)]

/-- Partition coverage for a whole group: the concatenation of the sliced
records is the original record list, in order, no overlap, no gaps. -/
lemma gen_slices_cov (xs : List ℕ) (bs : ℕ) (hbs : 0 < bs) :
    ((gen_slices 0 xs.length bs).map (sliceRecs xs)).flatten = xs := by
  unfold gen_slices
  rw [genSlicesGo_cov xs xs.length bs hbs _ 0 (by omega)]
  simp

/-- Slice count for a whole group: `ceil(n / blocksize)`. -/
lemma gen_slices_len (n bs : ℕ) (hbs : 0 < bs) :
    (gen_slices 0 n bs).length = (n + bs - 1) / bs := by
  unfold gen_slices
  rw [genSlicesGo_len n bs hbs _ 0 (by omega), Nat.sub_zero]

/-- Slice bounds for a whole group. -/
lemma gen_slices_mem (n bs : ℕ) (s : ℕ × ℕ) (hs : s ∈ gen_slices 0 n bs) :
    s.1 < s.2 ∧ s.2 ≤ n ∧ s.2 - s.1 ≤ bs := by
  have := genSlicesGo_mem n bs (n - 0) 0 s hs
  omega

/-- Every work unit of a group carries the group id and at most
`blocksize` records. -/
lemma groupUnits_mem (gid bs : ℕ) (ctx : List ℕ) (u : WorkUnit)
    (hu : u ∈ groupUnits gid ctx bs) : u.grp = gid ∧ u.recs.length ≤ bs := by
  unfold groupUnits at hu
  rcases List.mem_map.1 hu with ⟨s, hs, rfl⟩
  have hb := gen_slices_mem ctx.length bs s hs
  refine ⟨rfl, ?_⟩
  show ((ctx.take s.2).drop s.1).length ≤ bs
  simp only [List.length_drop, List.length_take]
  omega

/-- The records of a group's units reconstruct the group exactly. -/
lemma groupUnits_recs (gid bs : ℕ) (ctx : List ℕ) (hbs : 0 < bs) :
    ((groupUnits gid ctx bs).map WorkUnit.recs).flatten = ctx := by
  unfold groupUnits
  rw [List.map_map]
  exact gen_slices_cov ctx bs hbs

/-- The number of units of a group is `ceil(group size / blocksize)`. -/
lemma groupUnits_len (gid bs : ℕ) (ctx : List ℕ) (hbs : 0 < bs) :
    (groupUnits gid ctx bs).length = (ctx.length + bs - 1) / bs := by
  unfold groupUnits
  rw [List.length_map]
  exact gen_slices_len ctx.length bs hbs

/-! ## Properties of the weighted combiner -/

/-- Reading a non-broadcast axis within bounds is the identity. -/
lemma bidx_lt (d i : ℕ) (h : i < d) : bidx d i = i := by
  unfold bidx
  split
  · omega
  · rfl

/-- Distributing a scalar over a list sum of weights. -/
lemma sum_mul_right (rl : List ℕ) (w : ℕ → ℚ) (x : ℚ) :
    (rl.map w).sum * x = (rl.map (fun r => w r * x)).sum := by
  induction rl with
  | nil => simp
  | cons r rl ih => simp [List.map_cons, List.sum_cons, add_mul, ih]

/-- An addend of the output's own shape always broadcasts. -/
lemma bcastOK_of_eq (out A : Arr3) (h1 : A.d1 = out.d1) (h2 : A.d2 = out.d2)
    (h3 : A.d3 = out.d3) : Arr3.bcastOK out A = true := by
  simp [Arr3.bcastOK, bcastDim, h1, h2, h3]

/-- The inner realization loop `for rlz in rlzs[g]: out += weig[rlz] * value`
succeeds when `value` has the output's shape, keeps the shape, and adds
`(Σ weig) · value` (read through the no-op broadcast indices). -/
lemma inner_fold (weig : ℕ → ℚ) (A : Arr3) :
    ∀ (rl : List ℕ) (out : Arr3),
      A.d1 = out.d1 → A.d2 = out.d2 → A.d3 = out.d3 →
      ∃ out', rl.foldlM
          (fun o rlz => Arr3.iaddE o (Arr3.smul (weig rlz) A)) out = .ok out'
        ∧ out'.d1 = out.d1 ∧ out'.d2 = out.d2 ∧ out'.d3 = out.d3
        ∧ ∀ i j k, out'.val i j k = out.val i j k +
            ((rl.map weig).sum) * A.val (bidx A.d1 i) (bidx A.d2 j) (bidx A.d3 k) := by
  intro rl
  induction rl with
  | nil =>
    intro out h1 h2 h3
    refine ⟨out, rfl, rfl, rfl, rfl, ?_⟩
    intro i j k
    simp
  | cons r rl ih =>
    intro out h1 h2 h3
    have hstep : Arr3.iaddE out (Arr3.smul (weig r) A)
        = .ok (Arr3.iadd out (Arr3.smul (weig r) A)) := by
      unfold Arr3.iaddE
      rw [if_pos (bcastOK_of_eq out (Arr3.smul (weig r) A) h1 h2 h3)]
    obtain ⟨out', hfold, hd1, hd2, hd3, hval⟩ :=
      ih (Arr3.iadd out (Arr3.smul (weig r) A)) h1 h2 h3
    refine ⟨out', ?_, hd1, hd2, hd3, ?_⟩
    · rw [List.foldlM_cons, hstep]
      exact hfold
    · intro i j k
      rw [hval i j k]
      simp only [Arr3.iadd, Arr3.smul, List.map_cons, List.sum_cons, add_mul]
      ring

/-- The outer loop `for g in acc` of `combine_mrds`, starting from any
array whose shape every partial matches: it succeeds, keeps the shape, and
adds, inside the shape, the per-index weighted sums. -/
lemma outer_fold (rlzs : ℕ → List ℕ) (weig : ℕ → ℚ) :
    ∀ (l : List (ℕ × Arr3)) (out : Arr3),
      (∀ p ∈ l, p.2.d1 = out.d1 ∧ p.2.d2 = out.d2 ∧ p.2.d3 = out.d3) →
      ∃ out', l.foldlM
          (fun o gv => (rlzs gv.1).foldlM
            (fun o2 rlz => Arr3.iaddE o2 (Arr3.smul (weig rlz) gv.2)) o)
          out = .ok out'
        ∧ out'.d1 = out.d1 ∧ out'.d2 = out.d2 ∧ out'.d3 = out.d3
        ∧ ∀ i j k, i < out.d1 → j < out.d2 → k < out.d3 →
            out'.val i j k = out.val i j k +
              (l.map (fun p =>
                ((rlzs p.1).map (fun r => weig r * p.2.val i j k)).sum)).sum := by
  intro l
  induction l with
  | nil =>
    intro out hsh
    refine ⟨out, rfl, rfl, rfl, rfl, ?_⟩
    intro i j k _ _ _
    simp
  | cons p l ih =>
    intro out hsh
    obtain ⟨hp1, hp2, hp3⟩ := hsh p (List.mem_cons_self p l)
    obtain ⟨out1, hfold1, h11, h12, h13, hval1⟩ :=
      inner_fold weig p.2 (rlzs p.1) out hp1 hp2 hp3
    obtain ⟨out2, hfold2, h21, h22, h23, hval2⟩ := ih out1 (by
      intro q hq
      obtain ⟨hq1, hq2, hq3⟩ := hsh q (List.mem_cons_of_mem p hq)
      exact ⟨by rw [hq1, h11], by rw [hq2, h12], by rw [hq3, h13]⟩)
    refine ⟨out2, ?_, by rw [h21, h11], by rw [h22, h12], by rw [h23, h13], ?_⟩
    · rw [List.foldlM_cons, hfold1]
      exact hfold2
    · intro i j k hi hj hk
      rw [hval2 i j k (by rw [h11]; exact hi) (by rw [h12]; exact hj)
          (by rw [h13]; exact hk)]
      rw [hval1 i j k]
      rw [bidx_lt p.2.d1 i (by omega), bidx_lt p.2.d2 j (by omega),
          bidx_lt p.2.d3 k (by omega)]
      rw [sum_mul_right (rlzs p.1) weig (p.2.val i j k)]
      rw [List.map_cons, List.sum_cons]
      ring

/-- Characterization of `combine_mrds` on a non-empty accumulator whose
partial arrays all share the shape of the first one: it returns, without
error, the array of that shape whose entries inside the shape are
`Σ_{g ∈ acc} Σ_{r ∈ rlzs g} weig r · acc[g]`, accumulated onto zeros. -/
lemma combine_mrds_ok (g0 : ℕ) (A0 : Arr3) (rest : List (ℕ × Arr3))
    (rlzs : ℕ → List ℕ) (weig : ℕ → ℚ)
    (hsh : ∀ p ∈ (g0, A0) :: rest,
      p.2.d1 = A0.d1 ∧ p.2.d2 = A0.d2 ∧ p.2.d3 = A0.d3) :
    ∃ out, combine_mrds ((g0, A0) :: rest) rlzs weig = .ok out
      ∧ out.d1 = A0.d1 ∧ out.d2 = A0.d2 ∧ out.d3 = A0.d3
      ∧ ∀ i j k, i < A0.d1 → j < A0.d2 → k < A0.d3 →
          out.val i j k = (((g0, A0) :: rest).map
            (fun p => ((rlzs p.1).map (fun r => weig r * p.2.val i j k)).sum)).sum := by
  obtain ⟨out, hfold, h1, h2, h3, hval⟩ :=
    outer_fold rlzs weig ((g0, A0) :: rest) (Arr3.zeros A0.d1 A0.d2 A0.d3) hsh
  refine ⟨out, hfold, h1, h2, h3, ?_⟩
  intro i j k hi hj hk
  rw [hval i j k hi hj hk]
  show 0 + _ = _
  rw [zero_add]

/-! ## Properties of the orchestrator's dispatch phase -/

/-- On valid inputs (`N ≤ 10`, nonzero `concurrent_tasks`) `mrd_main`
dispatches, per group, the units of the global blocksize
`ceil(total contexts / concurrent_tasks)`. -/
lemma mrd_main_ok (ds : Dstore) (hN : ds.N ≤ 10) (hT : ds.concurrent_tasks ≠ 0) :
    mrd_main ds = .ok (ds.ctx_by_grp.flatMap fun p =>
      groupUnits p.1 p.2
        ((totalCtx ds + ds.concurrent_tasks - 1) / ds.concurrent_tasks)) := by
  unfold mrd_main blocksizeE
  rw [if_pos hN, if_neg hT]

/-- A successful `mrd_main` run dispatched exactly the per-group units of
some common blocksize. -/
lemma mrd_main_ok_inv (ds : Dstore) (units : List WorkUnit)
    (h : mrd_main ds = .ok units) :
    ∃ bs, units = ds.ctx_by_grp.flatMap fun p => groupUnits p.1 p.2 bs := by
  unfold mrd_main at h
  split at h
  · split at h
    · exact absurd h (by simp)
    · exact ⟨_, (Except.ok.inj h).symm⟩
  · exact absurd h (by simp)

/-- Every dispatched unit carries the group id of one of the groups. -/
lemma mem_units_grp (ds : Dstore) (bs : ℕ) (u : WorkUnit)
    (hu : u ∈ ds.ctx_by_grp.flatMap fun p => groupUnits p.1 p.2 bs) :
    ∃ p ∈ ds.ctx_by_grp, u.grp = p.1 := by
  rcases List.mem_flatMap.1 hu with ⟨p, hp, hup⟩
  exact ⟨p, hp, (groupUnits_mem p.1 bs p.2 u hup).1⟩

/-! ## The combiner never raises the specification's ShapeMismatchError -/

/-- A monadic fold whose step never produces a given error never produces
it either. -/
lemma foldlM_ne_err {α β : Type} (f : β → α → Except MrdError β) (e : MrdError)
    (hf : ∀ b a, f b a ≠ .error e) :
    ∀ (l : List α) (b : β), l.foldlM f b ≠ .error e := by
  intro l
  induction l with
  | nil =>
    intro b h
    exact Except.noConfusion (show Except.ok b = Except.error e from h)
  | cons a l ih =>
    intro b
    rw [List.foldlM_cons]
    cases hfa : f b a with
    | error e' =>
      intro h
      rw [show ((Except.error e' : Except MrdError β) >>= fun b' => l.foldlM f b')
            = Except.error e' from rfl] at h
      injection h with h
      rw [h] at hfa
      exact hf b a hfa
    | ok b' =>
      rw [show ((Except.ok b' : Except MrdError β) >>= fun b' => l.foldlM f b')
            = l.foldlM f b' from rfl]
      exact ih b'

/-- The numpy in-place addition raises only a broadcasting error. -/
lemma iaddE_ne_shapeMismatch (o A : Arr3) :
    Arr3.iaddE o A ≠ .error .shapeMismatch := by
  unfold Arr3.iaddE
  split
  · simp
  · simp

/-! ## Weight linearity of the combiner -/

/-- Extensionality for the array embedding. -/
lemma arr3_eq (a b : Arr3) (h1 : a.d1 = b.d1) (h2 : a.d2 = b.d2)
    (h3 : a.d3 = b.d3) (hv : ∀ i j k, a.val i j k = b.val i j k) : a = b := by
  cases a
  cases b
  simp only [Arr3.mk.injEq]
  exact ⟨h1, h2, h3, funext fun i => funext fun j => funext fun k => hv i j k⟩

/-- Scaling both operands of the in-place addition by `c` commutes with
the addition (the broadcastability test only reads shapes, which scaling
preserves). -/
lemma iaddE_scale (c w : ℚ) (o A : Arr3) :
    Arr3.iaddE (Arr3.smul c o) (Arr3.smul (c * w) A)
      = (Arr3.iaddE o (Arr3.smul w A)).map (Arr3.smul c) := by
  unfold Arr3.iaddE
  rw [show Arr3.bcastOK (Arr3.smul c o) (Arr3.smul (c * w) A)
        = Arr3.bcastOK o (Arr3.smul w A) from rfl]
  by_cases hc : Arr3.bcastOK o (Arr3.smul w A) = true
  · rw [if_pos hc, if_pos hc]
    show Except.ok _ = Except.ok _
    exact congrArg Except.ok (arr3_eq _ _ rfl rfl rfl (fun i j k => by
      simp only [Arr3.iadd, Arr3.smul]
      ring))
  · rw [if_neg hc, if_neg hc]
    rfl

/-- The inner realization loop with every weight scaled by `c`, started
from the scaled accumulator, is the scaled original loop. -/
lemma inner_scale (c : ℚ) (weig : ℕ → ℚ) (A : Arr3) :
    ∀ (rl : List ℕ) (o : Arr3),
      rl.foldlM (fun o2 rlz => Arr3.iaddE o2 (Arr3.smul (c * weig rlz) A))
          (Arr3.smul c o)
        = (rl.foldlM (fun o2 rlz => Arr3.iaddE o2 (Arr3.smul (weig rlz) A)) o).map
            (Arr3.smul c) := by
  intro rl
  induction rl with
  | nil => intro o; rfl
  | cons r rl ih =>
    intro o
    rw [List.foldlM_cons, List.foldlM_cons, iaddE_scale c (weig r) o A]
    cases h : Arr3.iaddE o (Arr3.smul (weig r) A) with
    | error e => rfl
    | ok o1 => exact ih o1

/-- The outer group loop with every weight scaled by `c`. -/
lemma outer_scale (c : ℚ) (rlzs : ℕ → List ℕ) (weig : ℕ → ℚ) :
    ∀ (l : List (ℕ × Arr3)) (o : Arr3),
      l.foldlM (fun o2 gv => (rlzs gv.1).foldlM
          (fun o3 rlz => Arr3.iaddE o3 (Arr3.smul (c * weig rlz) gv.2)) o2)
          (Arr3.smul c o)
        = (l.foldlM (fun o2 gv => (rlzs gv.1).foldlM
            (fun o3 rlz => Arr3.iaddE o3 (Arr3.smul (weig rlz) gv.2)) o2) o).map
            (Arr3.smul c) := by
  intro l
  induction l with
  | nil => intro o; rfl
  | cons p l ih =>
    intro o
    rw [List.foldlM_cons, List.foldlM_cons, inner_scale c weig p.2 (rlzs p.1) o]
    cases h : (rlzs p.1).foldlM
        (fun o3 rlz => Arr3.iaddE o3 (Arr3.smul (weig rlz) p.2)) o with
    | error e => rfl
    | ok o1 => exact ih o1

/-! ## The claims -/

/-- Claim C1: for every non-empty collection of partial results (all of
shape `(L1, L1, N)`, as the data model's Partial Result prescribes) and
every weight table, `combine_mrds` returns, without error, an array of
shape `(L1, L1, N)` whose every in-shape entry is the sum over every
sub-model index `g` present in the collected partials of the sum over
every realization `r` associated with `g` of `weig r` times the merged
array `acc[g]`, accumulated from a zero-initialized array. -/
theorem claim_C1_combiner_weighted_sum (g0 : ℕ) (A0 : Arr3)
    (rest : List (ℕ × Arr3)) (rlzs : ℕ → List ℕ) (weig : ℕ → ℚ) (L1 N : ℕ)
    (hshape : ∀ p ∈ (g0, A0) :: rest,
      p.2.d1 = L1 ∧ p.2.d2 = L1 ∧ p.2.d3 = N) :
    ∃ out, combine_mrds ((g0, A0) :: rest) rlzs weig = .ok out
      ∧ out.d1 = L1 ∧ out.d2 = L1 ∧ out.d3 = N
      ∧ ∀ i j k, i < L1 → j < L1 → k < N →
          out.val i j k = (((g0, A0) :: rest).map
            (fun p => ((rlzs p.1).map
              (fun r => weig r * p.2.val i j k)).sum)).sum := by
  obtain ⟨h01, h02, h03⟩ := hshape (g0, A0) (List.mem_cons_self _ _)
  obtain ⟨out, hok, hd1, hd2, hd3, hval⟩ :=
    combine_mrds_ok g0 A0 rest rlzs weig (by
      intro p hp
      obtain ⟨a, b, c⟩ := hshape p hp
      exact ⟨by rw [a, h01], by rw [b, h02], by rw [c, h03]⟩)
  refine ⟨out, hok, by rw [hd1, h01], by rw [hd2, h02], by rw [hd3, h03], ?_⟩
  intro i j k hi hj hk
  exact hval i j k (by rw [h01]; exact hi) (by rw [h02]; exact hj)
    (by rw [h03]; exact hk)

def c1A : Arr3 := ⟨1, 1, 2, fun _ _ _ => 2⟩
def c1B : Arr3 := ⟨1, 1, 2, fun _ _ _ => 3⟩
def c1rlzs : ℕ → List ℕ := fun g => if g = 0 then [0] else [1]
def c1weig : ℕ → ℚ := fun r => if r = 0 then 1 / 2 else 1 / 4

/-- Witness for C1 at a concrete two-partial collection of shape
`(1, 1, 2)`. -/
theorem claim_C1_witness :
    (∀ p ∈ (0, c1A) :: [(1, c1B)], p.2.d1 = 1 ∧ p.2.d2 = 1 ∧ p.2.d3 = 2)
    ∧ ∃ out, combine_mrds ((0, c1A) :: [(1, c1B)]) c1rlzs c1weig = .ok out
        ∧ out.d1 = 1 ∧ out.d2 = 1 ∧ out.d3 = 2
        ∧ ∀ i j k, i < 1 → j < 1 → k < 2 →
            out.val i j k = (((0, c1A) :: [(1, c1B)]).map
              (fun p => ((c1rlzs p.1).map
                (fun r => c1weig r * p.2.val i j k)).sum)).sum :=
  ⟨by decide, claim_C1_combiner_weighted_sum 0 c1A [(1, c1B)] c1rlzs c1weig 1 2
    (by decide)⟩

def c2A : Arr3 := ⟨1, 1, 2, fun _ _ _ => 1⟩
def c2B : Arr3 := ⟨1, 1, 1, fun _ _ _ => 1⟩

/-- Counterexample to claim C2: the combiner does not verify partial
shapes while merging.  Here the second partial's shape `(1, 1, 1)`
disagrees with the first's `(1, 1, 2)` (`d3` differs), yet `combine_mrds`
returns without any error — numpy silently broadcasts the size-1 axis —
instead of raising `ShapeMismatchError` on the first mismatching
partial. -/
theorem claim_C2_counterexample :
    c2B.d3 ≠ c2A.d3
    ∧ isOkB (combine_mrds [(0, c2A), (1, c2B)] (fun g => [g]) (fun _ => 1))
        = true := by
  constructor
  · decide
  · rfl

/-- Claim C2 amended: the combiner performs no shape verification at all
and can never raise `ShapeMismatchError`, whatever the partials and the
weight table are; a partial whose shape disagrees but is
broadcast-compatible is silently folded into the sum (see the
counterexample), and only a non-broadcastable partial stops the merge,
with the array library's generic broadcasting error. -/
theorem claim_C2_amended_no_shape_check (acc : List (ℕ × Arr3))
    (rlzs : ℕ → List ℕ) (weig : ℕ → ℚ) :
    combine_mrds acc rlzs weig ≠ .error .shapeMismatch := by
  cases acc with
  | nil =>
    intro h
    exact MrdError.noConfusion (Except.error.inj h)
  | cons p rest =>
    obtain ⟨g0, A0⟩ := p
    show List.foldlM _ _ _ ≠ _
    apply foldlM_ne_err
    intro b gv
    apply foldlM_ne_err
    intro o rlz
    exact iaddE_ne_shapeMismatch o (Arr3.smul (weig rlz) gv.2)

/-- Claim C3: if the site count exceeds the hard ceiling of 10, `main`
fails with the too-many-sites error (`assert N <= 10, 'Too many sites'`)
before anything is partitioned or dispatched: the run's result is the
error and no unit list is ever produced, hence no output write occurs. -/
theorem claim_C3_fail_fast_too_many_sites (ds : Dstore) (hN : 10 < ds.N) :
    mrd_main ds = .error .tooManySites := by
  unfold mrd_main
  rw [if_neg (by omega)]

def c3ds : Dstore := ⟨11, 1, [(0, [0])], fun _ => [], 1⟩

/-- Witness for C3 at `N = 11`. -/
theorem claim_C3_witness : 10 < c3ds.N ∧ mrd_main c3ds = .error .tooManySites :=
  ⟨by decide, claim_C3_fail_fast_too_many_sites c3ds (by decide)⟩

def c4arr : Arr3 := ⟨1, 1, 2, fun _ _ _ => 1⟩
def c4rlzs : ℕ → List ℕ := fun g => [g]
def c4weig : ℕ → ℚ := fun _ => 1

/-- Counterexample to claim C4: the declared sub-model indices are
`[0, 1]` but the collected partials contain only `g = 0` (the declared
`g = 1` is missing); `combine_mrds` does not raise `ShapeMismatchError`
(nor any error) — it returns the partially-summed array. -/
theorem claim_C4_counterexample :
    (1 ∈ [0, 1] ∧ ∀ p ∈ [((0 : ℕ), c4arr)], p.1 ≠ 1)
    ∧ isOkB (combine_mrds [(0, c4arr)] c4rlzs c4weig) = true := by
  constructor
  · decide
  · rfl

/-- Claim C4 amended: when the collected partials omit a sub-model index
that the model binding declared, the combiner raises no error at all: it
silently returns the array summed over the indices that are present
only. -/
theorem claim_C4_amended_silent_partial_sum (g0 : ℕ) (A0 : Arr3)
    (rest : List (ℕ × Arr3)) (rlzs : ℕ → List ℕ) (weig : ℕ → ℚ)
    (declared : List ℕ) (L1 N : ℕ)
    (hshape : ∀ p ∈ (g0, A0) :: rest,
      p.2.d1 = L1 ∧ p.2.d2 = L1 ∧ p.2.d3 = N)
    (_hmiss : ∃ gm ∈ declared, ∀ p ∈ (g0, A0) :: rest, p.1 ≠ gm) :
    ∃ out, combine_mrds ((g0, A0) :: rest) rlzs weig = .ok out
      ∧ ∀ i j k, i < L1 → j < L1 → k < N →
          out.val i j k = (((g0, A0) :: rest).map
            (fun p => ((rlzs p.1).map
              (fun r => weig r * p.2.val i j k)).sum)).sum := by
  obtain ⟨h01, h02, h03⟩ := hshape (g0, A0) (List.mem_cons_self _ _)
  obtain ⟨out, hok, hd1, hd2, hd3, hval⟩ :=
    combine_mrds_ok g0 A0 rest rlzs weig (by
      intro p hp
      obtain ⟨a, b, c⟩ := hshape p hp
      exact ⟨by rw [a, h01], by rw [b, h02], by rw [c, h03]⟩)
  refine ⟨out, hok, ?_⟩
  intro i j k hi hj hk
  exact hval i j k (by rw [h01]; exact hi) (by rw [h02]; exact hj)
    (by rw [h03]; exact hk)

/-- Witness for the amended C4: declared indices `[0, 1]`, collected
partials only `g = 0`. -/
theorem claim_C4_witness :
    ((∀ p ∈ (0, c4arr) :: ([] : List (ℕ × Arr3)),
        p.2.d1 = 1 ∧ p.2.d2 = 1 ∧ p.2.d3 = 2)
      ∧ ∃ gm ∈ [0, 1], ∀ p ∈ (0, c4arr) :: ([] : List (ℕ × Arr3)), p.1 ≠ gm)
    ∧ ∃ out, combine_mrds ((0, c4arr) :: []) c4rlzs c4weig = .ok out
        ∧ ∀ i j k, i < 1 → j < 1 → k < 2 →
            out.val i j k = (((0, c4arr) :: ([] : List (ℕ × Arr3))).map
              (fun p => ((c4rlzs p.1).map
                (fun r => c4weig r * p.2.val i j k)).sum)).sum :=
  ⟨⟨by decide, by decide⟩,
    claim_C4_amended_silent_partial_sum 0 c4arr [] c4rlzs c4weig [0, 1] 1 2
      (by decide) (by decide)⟩

def c5ds : Dstore :=
  ⟨1, 1, [(0, [0, 1, 2, 3, 4, 5]), (1, [6, 7, 8, 9, 10, 11])], fun _ => [], 2⟩

/-- Counterexample to claim C5: with two groups of 6 records each and
target concurrency `T = 2`, the claim's per-group blocksize is
`ceil(6 / 2) = 3 = (6 + 2 - 1) / 2`, so each group should be cut into
slices of length at most 3.  The code instead computes the blocksize from
the total record count, `ceil(12 / 2) = 6`, and emits one slice of length
6 per group — exceeding the claimed per-group bound. -/
theorem claim_C5_counterexample :
    (mrd_main c5ds).map (fun l => l.map fun u => u.recs.length) = .ok [6, 6]
    ∧ ¬ (6 ≤ (6 + 2 - 1) / 2) := by
  constructor
  · rfl
  · decide

/-- Claim C5 amended: the blocksize is computed once, from the total
record count over all groups, as `ceil(total / T)` — not from each group's
own size.  With that global blocksize `bs`, each group is independently
cut into contiguous slices: concatenating the slices' records
reconstructs the group exactly (order preserved, no overlap, no gaps,
never mixing groups), every slice has length at most `bs`, and the slice
count of a group of size `n` is `ceil(n / bs)`. -/
theorem claim_C5_amended_global_blocksize (ds : Dstore)
    (hT : ds.concurrent_tasks ≠ 0) (hN : ds.N ≤ 10) :
    ∃ bs, blocksizeE (totalCtx ds) ds.concurrent_tasks = .ok bs
      ∧ mrd_main ds = .ok (ds.ctx_by_grp.flatMap fun p => groupUnits p.1 p.2 bs)
      ∧ ∀ p ∈ ds.ctx_by_grp,
          ((groupUnits p.1 p.2 bs).map WorkUnit.recs).flatten = p.2
          ∧ (∀ u ∈ groupUnits p.1 p.2 bs, u.grp = p.1 ∧ u.recs.length ≤ bs)
          ∧ (groupUnits p.1 p.2 bs).length = (p.2.length + bs - 1) / bs := by
  refine ⟨(totalCtx ds + ds.concurrent_tasks - 1) / ds.concurrent_tasks, ?_,
    mrd_main_ok ds hN hT, ?_⟩
  · unfold blocksizeE
    rw [if_neg hT]
  · intro p hp
    by_cases h0 : 0 < (totalCtx ds + ds.concurrent_tasks - 1) / ds.concurrent_tasks
    · exact ⟨groupUnits_recs p.1 _ p.2 h0,
        fun u hu => groupUnits_mem p.1 _ p.2 u hu,
        groupUnits_len p.1 _ p.2 h0⟩
    · have hT' : 0 < ds.concurrent_tasks := Nat.pos_of_ne_zero hT
      have htot : totalCtx ds = 0 := by
        by_contra hne
        have h1 : 1 ≤ (totalCtx ds + ds.concurrent_tasks - 1)
            / ds.concurrent_tasks := by
          rw [Nat.le_div_iff_mul_le hT']
          omega
        omega
      have hlen : p.2.length = 0 := by
        have hmem : p.2.length ∈ ds.ctx_by_grp.map (fun q => q.2.length) :=
          List.mem_map_of_mem _ hp
        have hle := List.single_le_sum (fun x _ => Nat.zero_le x) _ hmem
        unfold totalCtx at htot
        omega
      have hnil : p.2 = [] := List.eq_nil_of_length_eq_zero hlen
      have hbs0 : (totalCtx ds + ds.concurrent_tasks - 1)
          / ds.concurrent_tasks = 0 := Nat.eq_zero_of_not_pos h0
      rw [hnil, hbs0]
      refine ⟨rfl, ?_, rfl⟩
      intro u hu
      simp [groupUnits, gen_slices, genSlicesGo] at hu

def c5wds : Dstore := ⟨1, 1, [(0, [0, 1, 2]), (1, [3, 4])], fun _ => [], 2⟩

/-- Witness for the amended C5 at two concrete groups with `T = 2`. -/
theorem claim_C5_witness :
    (c5wds.concurrent_tasks ≠ 0 ∧ c5wds.N ≤ 10)
    ∧ ∃ bs, blocksizeE (totalCtx c5wds) c5wds.concurrent_tasks = .ok bs
        ∧ mrd_main c5wds
            = .ok (c5wds.ctx_by_grp.flatMap fun p => groupUnits p.1 p.2 bs)
        ∧ ∀ p ∈ c5wds.ctx_by_grp,
            ((groupUnits p.1 p.2 bs).map WorkUnit.recs).flatten = p.2
            ∧ (∀ u ∈ groupUnits p.1 p.2 bs, u.grp = p.1 ∧ u.recs.length ≤ bs)
            ∧ (groupUnits p.1 p.2 bs).length = (p.2.length + bs - 1) / bs :=
  ⟨⟨by decide, by decide⟩,
    claim_C5_amended_global_blocksize c5wds (by decide) (by decide)⟩

def c6ds : Dstore := ⟨1, 1, [(0, [0])], fun _ => [], 0⟩

/-- Counterexample to claim C6: at `T = 0` (the only representable
`T < 1` for the integer task count) the run fails with Python's
`ZeroDivisionError` from `n / oq.concurrent_tasks` — not with the
specification's `ConfigurationError`; no such validation exists in the
code. -/
theorem claim_C6_counterexample :
    mrd_main c6ds = .error .zeroDivision
    ∧ MrdError.zeroDivision ≠ MrdError.configuration :=
  ⟨rfl, by decide⟩

/-- Claim C6 amended: a target concurrency of 0 is not validated; the
blocksize computation `numpy.ceil(n / oq.concurrent_tasks)` itself fails
with a division-by-zero error (provided the site-count assertion, which
runs first, passes), and no `ConfigurationError` is ever raised. -/
theorem claim_C6_amended_zero_division (ds : Dstore)
    (hT : ds.concurrent_tasks = 0) (hN : ds.N ≤ 10) :
    mrd_main ds = .error .zeroDivision := by
  unfold mrd_main blocksizeE
  rw [if_pos hN, if_pos hT]

/-- Witness for the amended C6. -/
theorem claim_C6_witness :
    (c6ds.concurrent_tasks = 0 ∧ c6ds.N ≤ 10)
    ∧ mrd_main c6ds = .error .zeroDivision :=
  ⟨⟨rfl, by decide⟩, claim_C6_amended_zero_division c6ds rfl (by decide)⟩

/-- Claim C7: weight linearity.  Scaling every realization weight by a
constant `c` turns the combiner's result into the elementwise `c`-scaling
of the original result (`Arr3.smul c` multiplies every entry by `c` and
keeps the shape); error outcomes are unchanged.  Exact in the rational
embedding, which abstracts floating point. -/
theorem claim_C7_weight_linearity (acc : List (ℕ × Arr3))
    (rlzs : ℕ → List ℕ) (weig : ℕ → ℚ) (c : ℚ) :
    combine_mrds acc rlzs (fun r => c * weig r)
      = (combine_mrds acc rlzs weig).map (Arr3.smul c) := by
  cases acc with
  | nil => rfl
  | cons p rest =>
    obtain ⟨g0, A0⟩ := p
    show List.foldlM _ _ _ = _
    have hz : (Arr3.zeros A0.d1 A0.d2 A0.d3)
        = Arr3.smul c (Arr3.zeros A0.d1 A0.d2 A0.d3) :=
      arr3_eq _ _ rfl rfl rfl (fun i j k => by simp [Arr3.zeros, Arr3.smul])
    conv_lhs => rw [hz]
    exact outer_scale c rlzs weig ((g0, A0) :: rest)
      (Arr3.zeros A0.d1 A0.d2 A0.d3)

def c8ds : Dstore :=
  ⟨1, 1, [(0, [0, 1, 2, 3, 4, 5, 6, 7, 8, 9, 10, 11])],
    fun g => if g = 0 then [0, 1] else [], 4⟩

/-- Counterexample to claim C8: for the end-to-end scenario (one group of
12 records, binding `gidx = [0, 1]`, `T = 4`) the code computes
`blocksize = ceil(12 / 4) = 3` and the partitioner emits 4 slices of
sizes `[3, 3, 3, 3]` — not 3 slices of sizes `[4, 4, 4]` as the claim
states. -/
theorem claim_C8_counterexample :
    (mrd_main c8ds).map (fun l => l.map fun u => u.recs.length)
      = .ok [3, 3, 3, 3]
    ∧ ([3, 3, 3, 3] : List ℕ) ≠ [4, 4, 4] :=
  ⟨rfl, by decide⟩

/-- Claim C8 amended: in the end-to-end scenario with a single group of
12 records and `T = 4`, the partitioner emits exactly 4 slices of sizes
`[3, 3, 3, 3]` (blocksize `ceil(12 / 4) = 3`), covering records 0-11 in
order. -/
theorem claim_C8_amended_four_slices :
    mrd_main c8ds = .ok
      [⟨0, 0, 3, [0, 1, 2]⟩, ⟨0, 3, 6, [3, 4, 5]⟩,
       ⟨0, 6, 9, [6, 7, 8]⟩, ⟨0, 9, 12, [9, 10, 11]⟩] := rfl

def c9ds : Dstore :=
  ⟨1, 1, [(0, [0, 1, 2, 3, 4, 5, 6, 7, 8, 9, 10, 11])],
    fun g => if g = 0 then [5] else [], 4⟩

/-- Counterexample to claim C9: one group of 12 records with binding
`gidx = [5]` and `T = 4` is split into 4 work units; every unit returns a
partial result keyed by the whole `gidx` of its group's binding, so the
sub-model index 5 appears in the partial results of 4 units — not of
exactly one. -/
theorem claim_C9_counterexample :
    (mrd_main c9ds).map
        (fun l => l.countP fun u => (compute_mrd_keys c9ds u).contains 5)
      = .ok 4
    ∧ (4 : ℕ) ≠ 1 :=
  ⟨rfl, by decide⟩

/-- Claim C9 amended: a sub-model index `g` appears in the partial result
of every unit originating from its own group — one per slice, so possibly
several — but, whenever distinct groups declare disjoint `gidx` lists, `g`
is confined to the units of a single group: any two dispatched units whose
partial results contain `g` come from the same group. -/
theorem claim_C9_amended_group_confinement (ds : Dstore)
    (units : List WorkUnit) (g : ℕ)
    (hdisj : ∀ p ∈ ds.ctx_by_grp, ∀ q ∈ ds.ctx_by_grp, p.1 ≠ q.1 →
      ∀ x ∈ ds.gidx p.1, x ∉ ds.gidx q.1)
    (hrun : mrd_main ds = .ok units)
    (u1 u2 : WorkUnit) (h1 : u1 ∈ units) (h2 : u2 ∈ units)
    (hg1 : g ∈ compute_mrd_keys ds u1) (hg2 : g ∈ compute_mrd_keys ds u2) :
    u1.grp = u2.grp := by
  obtain ⟨bs, rfl⟩ := mrd_main_ok_inv ds units hrun
  obtain ⟨p, hp, hup⟩ := mem_units_grp ds bs u1 h1
  obtain ⟨q, hq, huq⟩ := mem_units_grp ds bs u2 h2
  rw [hup, huq]
  by_contra hne
  exact hdisj p hp q hq hne g (by rw [← hup]; exact hg1)
    (by rw [← huq]; exact hg2)

def c9wds : Dstore :=
  ⟨1, 1, [(0, [0, 1]), (1, [2, 3])], fun g => if g = 0 then [0] else [1], 1⟩
def c9wl : List WorkUnit := [⟨0, 0, 2, [0, 1]⟩, ⟨1, 0, 2, [2, 3]⟩]
def c9wu : WorkUnit := ⟨0, 0, 2, [0, 1]⟩

/-- Witness for the amended C9 at two concrete groups with disjoint
`gidx`. -/
theorem claim_C9_witness :
    (mrd_main c9wds = Except.ok c9wl ∧ 0 ∈ compute_mrd_keys c9wds c9wu)
    ∧ c9wu.grp = c9wu.grp :=
  ⟨⟨rfl, by decide⟩,
    claim_C9_amended_group_confinement c9wds c9wl 0 (by decide) rfl c9wu c9wu
      (by decide) (by decide) (by decide) (by decide)⟩

/-- Claim C10: applied to an empty collection of partial results, the
combiner fails — `next(iter(acc))` on an empty dict raises
`StopIteration` — rather than returning an array. -/
theorem claim_C10_empty_combiner_fails (rlzs : ℕ → List ℕ) (weig : ℕ → ℚ) :
    combine_mrds [] rlzs weig = .error .stopIteration := rfl
